import Mathlib

/-!
# Verification of the BR cdclog log-restore pipeline

This development is a shallow embedding, in Lean 4, of the log replay and
bulk-ingestion pipeline of the `restore` package (`LogClient` in
`log_client.go`, given here as `src/unnamed/part_000`) together with the
generated-column handling of the lightning row encoder
(`src/br/pkg/lightning/backend/kv/sql2kv.go`).

Go `uint64` timestamps are modelled as `Nat`; the only place where the
64-bit width matters is the DDL file-name decoding `maxUint64 - ts`, where
the parser guarantees `ts ≤ maxUint64`, so `Nat` subtraction agrees with
the Go computation.  Fallible operations return `Except`.  The stateful
per-table replay loop is embedded as a structurally recursive function
from the (finite) event stream to the list of observable actions it
performs, together with the final mutable state.
-/

namespace LogRestore

/-- `maxUint64 = ^uint64(0)` from the source constants. -/
def maxUint64 : Nat := 2 ^ 64 - 1

/-! ## Time-window validation (`RestoreLogData`, part_000 lines 693-703) -/

/-- The error classes surfaced by the embedded fragments.  `rtsConstrain`
is `berrors.ErrRestoreRTsConstrain` ("start ts is greater than resolved
ts"). -/
inductive RestoreErr where
  | rtsConstrain
  | decodeError
  deriving DecidableEq, Repr

/-- Embeds the window-validation step at the top of `RestoreLogData`
(part_000 lines 693-703): after loading `LogMeta`, fail with
`ErrRestoreRTsConstrain` when `startTS > GlobalResolvedTS`; otherwise, if
`endTS > GlobalResolvedTS`, continue with `endTS` lowered to
`GlobalResolvedTS`.  Returns the effective `endTS` used by the rest of
the restore. -/
def restoreLogDataCheck (startTS endTS resolvedTS : Nat) : Except RestoreErr Nat :=
  if startTS > resolvedTS then
    .error .rtsConstrain
  else if endTS > resolvedTS then
    .ok resolvedTS
  else
    .ok endTS

/-! ## File-name classification (`NeedRestoreDDL` lines 174-203,
`NeedRestoreRowChange` lines 282-305) -/

/-- File names are modelled as their character sequences, so that the
splitting and parsing functions below are structurally recursive and
computable inside the kernel. -/
abbrev FileName := List Char

/-- Models Go `strings.Split(s, ".")`: the list of (possibly empty)
segments of `s` separated by `'.'`.  On the empty string it returns one
empty segment, as in Go. -/
def splitOnDot : FileName → List FileName
  | [] => [[]]
  | c :: cs =>
    if c = '.' then [] :: splitOnDot cs
    else
      match splitOnDot cs with
      | [] => [[c]]
      | s :: rest => (c :: s) :: rest

/-- Models Go `strconv.ParseUint(s, 10, 64)`: the string must be
non-empty, consist only of decimal digits, and the value must fit in an
unsigned 64-bit integer; any failure (including overflow) is an error,
modelled as `none`. -/
def parseUint64 (s : FileName) : Option Nat :=
  if s.isEmpty then none
  else
    s.foldl
      (fun acc c =>
        match acc with
        | none => none
        | some n =>
          if c.isDigit then
            let v := n * 10 + (c.toNat - 48)
            if v ≤ maxUint64 then some v else none
          else none)
      (some 0)

/-- `ddlFilePrefix = "ddl"` from the source constants (renamed here). -/
def ddlFileTag : FileName := ['d', 'd', 'l']

/-- `logPrefix = "cdclog"` from the source constants (renamed here). -/
def logTag : FileName := ['c', 'd', 'c', 'l', 'o', 'g']

/-- Embeds `NeedRestoreDDL` (part_000 lines 174-203): split the file name
on `"."`; a name without exactly two segments, or whose first segment is
not `"ddl"`, is skipped (`false, nil`); a failing timestamp parse is an
error; otherwise decode `ts = maxUint64 - ts` and collect the file iff
the decoded ts is `≤ endTS`. -/
def needRestoreDDL (endTS : Nat) (fileName : FileName) : Except RestoreErr Bool :=
  match splitOnDot fileName with
  | [p, tsStr] =>
    if p ≠ ddlFileTag then .ok false
    else
      match parseUint64 tsStr with
      | none => .error .decodeError
      | some n =>
        let ts := maxUint64 - n
        if ts ≤ endTS then .ok true else .ok false
  | _ => .ok false

/-- Embeds `maybeTSInRange` (part_000 lines 152-158): a row-change file is
collected when its (last-event) file-name ts is `≥ startTS`. -/
def maybeTSInRange (startTS ts : Nat) : Bool :=
  ts ≥ startTS

/-- Embeds `NeedRestoreRowChange` (part_000 lines 282-305): the bare name
`"cdclog"` is always collected; otherwise the same two-segment shape and
prefix checks as for DDL files apply with prefix `"cdclog"`, a failing
timestamp parse is an error, and the file is collected iff
`maybeTSInRange` holds. -/
def needRestoreRowChange (startTS : Nat) (fileName : FileName) : Except RestoreErr Bool :=
  if fileName = logTag then .ok true
  else
    match splitOnDot fileName with
    | [p, tsStr] =>
      if p ≠ logTag then .ok false
      else
        match parseUint64 tsStr with
        | none => .error .decodeError
        | some n =>
          if maybeTSInRange startTS n then .ok true else .ok false
    | _ => .ok false

/-! ## Range-ingestion writer: sort and deduplicate (`writeRows`,
part_000 lines 378-435) -/

/-- A `kv.Pair`: raw key and value bytes, modelled as lists of byte
values. -/
structure Pair where
  key : List Nat
  val : List Nat
  deriving DecidableEq, Repr

/-- Models `bytes.Compare(a, b) < 0`: strict lexicographic order on byte
strings, with a proper prefix ordered before its extensions. -/
def bytesLt : List Nat → List Nat → Bool
  | [], [] => false
  | [], _ :: _ => true
  | _ :: _, [] => false
  | a :: as, b :: bs => a < b || (a = b && bytesLt as bs)

/-- The non-strict order induced by `bytesLt`, used to state sortedness
of the output of the stable sort in `writeRows`. -/
def pairLe (a b : Pair) : Prop := bytesLt b.key a.key = false

/-- One step of the stable in-memory sort performed by
`sort.SliceStable` in `writeRows` (part_000 lines 387-389): insert `x`
into an already-sorted suffix, skipping only the elements whose key is
strictly below `x`'s, so that elements with equal keys keep their
original relative order. -/
def insertPair (x : Pair) : List Pair → List Pair
  | [] => [x]
  | y :: ys => if bytesLt y.key x.key then y :: insertPair x ys else x :: y :: ys

/-- Models the `sort.SliceStable(kvs, ...)` call in `writeRows`: a stable
sort of the batch by `bytes.Compare` on keys. -/
def stableSortPairs : List Pair → List Pair
  | [] => []
  | x :: xs => insertPair x (stableSortPairs xs)

/-- Models the deduplication loop of `writeRows` (part_000 lines
392-403): walk the sorted batch and keep an element iff it is the last
one or its key differs from the next element's key — i.e. keep the last
occurrence of every run of equal keys. -/
def dedupKeepLast : List Pair → List Pair
  | [] => []
  | [p] => [p]
  | p :: q :: rest =>
    if p.key = q.key then dedupKeepLast (q :: rest)
    else p :: dedupKeepLast (q :: rest)

/-- The key/value pairs that survive `writeRows`'s sort-and-deduplicate
preprocessing and are handed to the range-ingestion loop (part_000 lines
378-409).  An empty batch returns immediately with no pairs. -/
def writeRowsKept (kvs : List Pair) : List Pair :=
  if kvs = [] then [] else dedupKeepLast (stableSortPairs kvs)

/-- Membership predicate used throughout: the sub-batch of pairs whose
key equals `k`. -/
def keyFilter (k : List Nat) : Pair → Bool := fun p => decide (p.key = k)

/-! ## Events, drop fences and the database-level DDL pass
(`isDBRelatedDDL` lines 230-236, `doDBDDLJob` lines 242-279,
`shouldFilter` lines 164-171) -/

/-- The `model.ActionType` values the restore client dispatches on. -/
inductive DDLType where
  | createSchema
  | dropSchema
  | modifySchemaCharsetAndCollate
  | createTable
  | dropTable
  | other
  deriving DecidableEq, Repr

/-- Embeds `isDBRelatedDDL` (part_000 lines 230-236): database-level DDL
kinds. -/
def isDBRelatedDDL : DDLType → Bool
  | .dropSchema => true
  | .createSchema => true
  | .modifySchemaCharsetAndCollate => true
  | _ => false

/-- Embeds `isDropTable` (part_000 lines 238-240). -/
def isDropTable : DDLType → Bool
  | .dropTable => true
  | _ => false

/-- Embeds `tsInRange` (part_000 lines 160-162). -/
def tsInRange (startTS endTS ts : Nat) : Bool :=
  startTS ≤ ts && ts ≤ endTS

/-- The payload of a `cdclog.SortItem` as dispatched on by the replay
loop: a `MessageDDL` (query text plus action kind) or a row change. -/
inductive ItemData where
  | ddl (query : String) (tp : DDLType)
  | row
  deriving DecidableEq, Repr

/-- A `cdclog.SortItem`: one decoded event of the log, carrying its
schema/table names and commit ts.  `data` plays the role of
`ItemType`/`Data`. -/
structure SortItem where
  schema : String
  table : String
  ts : Nat
  data : ItemData
  deriving DecidableEq, Repr

/-- A decoded event of a DDL file as consumed by `doDBDDLJob`: there the
`Data` payload is always a `MessageDDL`. -/
structure DDLItem where
  schema : String
  table : String
  ts : Nat
  query : String
  tp : DDLType
  deriving DecidableEq, Repr

/-- Association-list model of the `sync.Map` `dropTSMap`: lookup
(`Load`). -/
def lookupTS : List (String × Nat) → String → Option Nat
  | [], _ => none
  | (s, v) :: rest, key => if s = key then some v else lookupTS rest key

/-- Association-list model of the `sync.Map` `dropTSMap`: overwrite
(`Store`). -/
def storeTS : List (String × Nat) → String → Nat → List (String × Nat)
  | [], s, v => [(s, v)]
  | (s', v') :: rest, s, v =>
    if s' = s then (s, v) :: rest else (s', v') :: storeTS rest s v

/-- Embeds `shouldFilter` (part_000 lines 164-171): an item is filtered
when the drop-fence map holds a ts for its schema that is strictly
greater than the item's commit ts. -/
def shouldFilter (dropTSMap : List (String × Nat)) (it : SortItem) : Bool :=
  match lookupTS dropTSMap it.schema with
  | some v => v > it.ts
  | none => false

/-- The mutable state accumulated by `doDBDDLJob`: the drop-fence map
and, for specification purposes, the sequence of DDL events executed via
the session, in execution order. -/
structure DBJobState where
  dropTSMap : List (String × Nat)
  executed : List DDLItem
  deriving DecidableEq, Repr

/-- One decoded event of `doDBDDLJob`'s inner loop (part_000 lines
257-276): a database-level DDL whose ts is inside `[startTS, endTS]` is
executed, and a `DropSchema` additionally records its commit ts in the
drop-fence map; every other event is skipped. -/
def doDBDDLJobStep (startTS endTS : Nat) (st : DBJobState) (it : DDLItem) :
    DBJobState :=
  if isDBRelatedDDL it.tp && tsInRange startTS endTS it.ts then
    let st1 := { st with executed := st.executed ++ [it] }
    if it.tp = .dropSchema then
      { st1 with dropTSMap := storeTS st1.dropTSMap it.schema it.ts }
    else st1
  else st

/-- Embeds `doDBDDLJob` (part_000 lines 242-279): iterate the collected
DDL files in their sorted order and, within each file, the decoded
events in order. -/
def doDBDDLJob (startTS endTS : Nat) (files : List (List DDLItem))
    (st : DBJobState) : DBJobState :=
  files.foldl (fun acc file => file.foldl (doDBDDLJobStep startTS endTS) acc) st

/-! The remaining definitions needed by `RestoreLogData` (the per-table
worker model) are introduced below; `RestoreLogData` itself follows
them. -/

/-! ## The per-table replay loop (`restoreTableFromPuller`, part_000
lines 526-656) -/

/-- The `cdclog.TableBuffer` state visible to the replay loop:
whether the table descriptor is resolved (`TableInfo() != nil`) and the
pending appended events (standing for their encoded kv pairs). -/
structure TableBuffer where
  resolved : Bool
  items : List SortItem
  deriving DecidableEq, Repr

/-- The `LogClient` state mutated during one table's replay: the
drop-fence map (readable, and per the source never written here) and the
table's buffer. -/
structure LoopState where
  dropTSMap : List (String × Nat)
  buf : TableBuffer
  deriving DecidableEq, Repr

/-- The per-worker configuration: the restore ts window, the
backup-side schema/table name of this table (from
`ParseQuoteName(meta.Names[tableID])`), and the buffer's flush
threshold.  The threshold test of `TableBuffer.ShouldApply` lives in the
`cdclog` package, outside the given sources; it is modelled from the
spec ("if accumulated pair count or byte size crosses the configured
threshold, flush") as a pair-count threshold. -/
structure WorkerCfg where
  startTS : Nat
  endTS : Nat
  schema : String
  table : String
  flushThreshold : Nat
  deriving DecidableEq, Repr

/-- The observable actions of one table's replay loop, in execution
order.  `flush pending` is a call to `applyKVChanges`, carrying the
buffer contents it ingests; `append` is `TableBuffer.Append`; `execUse`
and `execDDL` are the two `se.Execute` calls under the DDL lock;
`finish` is the clean termination on the puller's nil sentinel. -/
inductive PullerAction where
  | skipLow (it : SortItem)
  | stopHigh (it : SortItem)
  | fenceFiltered (it : SortItem)
  | skipUnrelated (it : SortItem)
  | skipDBDDL (it : SortItem)
  | flush (pending : List SortItem)
  | execUse (schema : String)
  | execDDL (it : SortItem)
  | resetTableInfo
  | reloadMeta
  | append (it : SortItem)
  | finish
  deriving DecidableEq, Repr

/-- Embeds `restoreTableFromPuller` (part_000 lines 526-656) as a
function from the table's finite event stream (the puller's outputs
before its nil sentinel) to the list of actions performed and the final
state.  Failures of the storage, session or encoder are not modelled:
the embedded trace is the order in which the source performs these
operations.  Branches, in source order: items below `startTS` are
skipped; the first item above `endTS` flushes and stops; drop-fence
filtered items flush and are discarded; DDL items are prefiltered by
name, database-level DDL is skipped, table-level DDL flushes, executes
under the lock, and either resets (drop table) or reloads the table
descriptor; row items resolve the descriptor lazily, are appended, and
flush when the buffer's threshold is crossed. -/
def restoreTableFromPuller (cfg : WorkerCfg) (st : LoopState) :
    List SortItem → List PullerAction × LoopState
  | [] =>
    ([.flush st.buf.items, .finish],
      { st with buf := { st.buf with items := [] } })
  | it :: rest =>
    if cfg.startTS > it.ts then
      let r := restoreTableFromPuller cfg st rest
      (.skipLow it :: r.1, r.2)
    else if cfg.endTS < it.ts then
      ([.flush st.buf.items, .stopHigh it],
        { st with buf := { st.buf with items := [] } })
    else if shouldFilter st.dropTSMap it then
      let st1 := { st with buf := { st.buf with items := [] } }
      let r := restoreTableFromPuller cfg st1 rest
      (.flush st.buf.items :: .fenceFiltered it :: r.1, r.2)
    else
      match it.data with
      | .ddl _ tp =>
        if ¬ (cfg.schema = it.schema ∧ (cfg.table = it.table ∨ isDBRelatedDDL tp)) then
          let r := restoreTableFromPuller cfg st rest
          (.skipUnrelated it :: r.1, r.2)
        else if isDBRelatedDDL tp then
          let r := restoreTableFromPuller cfg st rest
          (.skipDBDDL it :: r.1, r.2)
        else if isDropTable tp then
          let st1 := { st with buf := { resolved := false, items := [] } }
          let r := restoreTableFromPuller cfg st1 rest
          (.flush st.buf.items :: .execUse it.schema :: .execDDL it ::
            .resetTableInfo :: r.1, r.2)
        else
          let st1 := { st with buf := { resolved := true, items := [] } }
          let r := restoreTableFromPuller cfg st1 rest
          (.flush st.buf.items :: .execUse it.schema :: .execDDL it ::
            .reloadMeta :: r.1, r.2)
      | .row =>
        let pre : List PullerAction :=
          if st.buf.resolved then [] else [.reloadMeta]
        let newItems := st.buf.items ++ [it]
        if cfg.flushThreshold ≤ newItems.length then
          let st1 := { st with buf := { resolved := true, items := [] } }
          let r := restoreTableFromPuller cfg st1 rest
          (pre ++ .append it :: .flush newItems :: r.1, r.2)
        else
          let st1 := { st with buf := { resolved := true, items := newItems } }
          let r := restoreTableFromPuller cfg st1 rest
          (pre ++ .append it :: r.1, r.2)

/-! ## The DDL critical section (`restoreTableFromPuller`, part_000
lines 612-622) -/

/-- Outcome of one `se.Execute` call. -/
inductive ExecOutcome where
  | ok
  | fail
  deriving DecidableEq, Repr

/-- Embeds the table-level-DDL critical section of
`restoreTableFromPuller` (part_000 lines 612-622) with the `ddlLock`
state made explicit.  `l.ddlLock.Lock()` is taken; then
`Execute("use <schema>")` runs — on error the function returns
immediately; then `Execute(ddl.Query)` runs — on error the function
returns immediately; only after both succeed is `l.ddlLock.Unlock()`
reached.  The result is the function's outcome paired with whether the
lock is still held at exit. -/
def ddlCriticalSection (useOutcome ddlOutcome : ExecOutcome) :
    Except Unit Unit × Bool :=
  -- l.ddlLock.Lock()
  match useOutcome with
  | .fail => (.error (), true)
  | .ok =>
    match ddlOutcome with
    | .fail => (.error (), true)
    | .ok => (.ok (), false)  -- l.ddlLock.Unlock()

/-! ## Generated-column collection and evaluation order
(`sql2kv.go`: `collectGeneratedColumns` lines 128-189,
`evaluateGeneratedColumns` lines 327-343, `Encode` lines 349-442) -/

/-- The column metadata the generated-column logic reads: the column's
offset and whether `GeneratedExpr != nil`. -/
structure ColumnMeta where
  offset : Nat
  generated : Bool
  deriving DecidableEq, Repr

/-- Offset of the `i`-th column of `cols` (indices produced below are
always in range). -/
def offsetAt (cols : List ColumnMeta) (i : Nat) : Nat :=
  ((cols.get? i).map (·.offset)).getD 0

/-- Whether the `i`-th column of `cols` is generated
(`GeneratedExpr != nil`). -/
def generatedAt (cols : List ColumnMeta) (i : Nat) : Bool :=
  ((cols.get? i).map (·.generated)).getD false

/-- Embeds `collectGeneratedColumns` (sql2kv.go lines 128-189): if no
column is generated, return the empty collection; otherwise collect the
index of every generated column, in column order, and sort the result by
column offset ("so they match the evaluation order").  The Go
`slices.SortFunc` is modelled by a sort with the same comparator. -/
def collectGeneratedColumns (cols : List ColumnMeta) : List Nat :=
  if cols.all (fun c => !c.generated) then []
  else
    List.insertionSort (fun i j => offsetAt cols i ≤ offsetAt cols j)
      ((List.range cols.length).filter (fun i => generatedAt cols i))

/-- The record-building steps of `tableKVEncoder.Encode` (sql2kv.go
lines 349-442), in execution order: `setCol i` is the append of column
`i`'s captured/converted value to `record` (for generated columns a
dummy minimal value at this point); `setExtraHandle` is the `_tidb_rowid`
append when the table has an automatic row id; `evalGen i` is the
in-order evaluation of generated column `i` inside
`evaluateGeneratedColumns`; `addRecord` is the final `AddRecord` that
produces the kv pairs. -/
inductive EncodeStep where
  | setCol (i : Nat)
  | setExtraHandle
  | evalGen (i : Nat)
  | addRecord
  deriving DecidableEq, Repr

/-- The sequence of steps `Encode` performs for one row: all columns are
materialised into `record` first (plus the optional automatic row id),
and only then are the generated columns evaluated, in the order
collected by `collectGeneratedColumns`. -/
def encodeSteps (cols : List ColumnMeta) (hasAutoRowID : Bool) :
    List EncodeStep :=
  ((List.range cols.length).map EncodeStep.setCol)
    ++ (if hasAutoRowID then [EncodeStep.setExtraHandle] else [])
    ++ (collectGeneratedColumns cols).map EncodeStep.evalGen
    ++ [EncodeStep.addRecord]

/-- The flush discipline of the replay loop, checked against a trace
while tracking the pending buffer contents: every `flush` call hands
over exactly the pending pairs (and empties the buffer); whenever a
table-level DDL is executed, whenever the loop stops on an event beyond
`endTS`, and whenever it terminates on the puller's sentinel, the
pending buffer has already been flushed. -/
def flushedBeforeOK (pending : List SortItem) : List PullerAction → Prop
  | [] => True
  | .flush l :: tr => l = pending ∧ flushedBeforeOK [] tr
  | .append it :: tr => flushedBeforeOK (pending ++ [it]) tr
  | .execDDL _ :: tr => pending = [] ∧ flushedBeforeOK pending tr
  | .stopHigh _ :: tr => pending = [] ∧ flushedBeforeOK pending tr
  | .finish :: tr => pending = [] ∧ flushedBeforeOK pending tr
  | _ :: tr => flushedBeforeOK pending tr

/-! ## Orchestration (`RestoreLogData` and `restoreTables`, part_000
lines 658-761) -/

/-- A step of the whole restore as observed across goroutines: a
database-level DDL executed by the up-front pass, or an action of the
per-table worker with the given index. -/
inductive GlobalAction where
  | dbDDL (it : DDLItem)
  | worker (idx : Nat) (a : PullerAction)
  deriving DecidableEq, Repr

/-- One table's replay inputs: its backup-side schema/table name
(from `meta.Names`), its buffer threshold and initial buffer, and the
finite event stream its puller will produce. -/
structure TableTask where
  schema : String
  table : String
  flushThreshold : Nat
  buf : TableBuffer
  stream : List SortItem
  deriving DecidableEq, Repr

/-- The concatenated action traces of the per-table workers spawned by
`restoreTables` (part_000 lines 658-674), each running under the shared
drop-fence map produced by the DDL pass. -/
def workersTrace (startTS endTS : Nat) (dropTSMap : List (String × Nat))
    (tasks : List TableTask) : List GlobalAction :=
  tasks.enum.flatMap (fun p =>
    (restoreTableFromPuller
      ⟨startTS, endTS, p.2.schema, p.2.table, p.2.flushThreshold⟩
      ⟨dropTSMap, p.2.buf⟩ p.2.stream).1.map (GlobalAction.worker p.1))

/-- Embeds the orchestration of `RestoreLogData` (part_000 lines
677-761): validate and clamp the ts window against the loaded meta's
`GlobalResolvedTS`, failing with `ErrRestoreRTsConstrain` before any
other work; then run the database-level DDL pass over the collected DDL
files; then, and only then, run the per-table workers.  Returns the
effective `endTS`, the state of the DDL pass, and the global action
trace. -/
def RestoreLogData (startTS endTS resolvedTS : Nat)
    (files : List (List DDLItem)) (tasks : List TableTask) :
    Except RestoreErr (Nat × DBJobState × List GlobalAction) :=
  match restoreLogDataCheck startTS endTS resolvedTS with
  | .error e => .error e
  | .ok endTSeff =>
    let job := doDBDDLJob startTS endTSeff files ⟨[], []⟩
    .ok (endTSeff, job,
      job.executed.map GlobalAction.dbDDL
        ++ workersTrace startTS endTSeff job.dropTSMap tasks)

/-! ## Theorems -/

/-- The comparison is irreflexive. -/
theorem bytesLt_irrefl : ∀ a, bytesLt a a = false
  | [] => rfl
  | _ :: as => by simp [bytesLt, bytesLt_irrefl as]

/-- The comparison is transitive. -/
theorem bytesLt_trans : ∀ {a b c}, bytesLt a b = true → bytesLt b c = true →
    bytesLt a c = true
  | [], _ :: _, _ :: _, _, _ => rfl
  | a :: as, b :: bs, c :: cs, hab, hbc => by
    simp only [bytesLt, Bool.or_eq_true, Bool.and_eq_true, decide_eq_true_eq] at *
    rcases hab with h₁ | ⟨rfl, h₁⟩ <;> rcases hbc with h₂ | ⟨rfl, h₂⟩
    · exact .inl (h₁.trans h₂)
    · exact .inl h₁
    · exact .inl h₂
    · exact .inr ⟨rfl, bytesLt_trans h₁ h₂⟩

/-- Two byte strings neither of which compares below the other are
equal. -/
theorem bytesLt_antisymm : ∀ {a b}, bytesLt a b = false → bytesLt b a = false →
    a = b
  | [], [], _, _ => rfl
  | a :: as, b :: bs, hab, hba => by
    simp only [bytesLt, Bool.or_eq_false_iff, Bool.and_eq_false_iff,
      decide_eq_false_iff_not, Nat.not_lt] at hab hba
    obtain ⟨hab1, hab2⟩ := hab
    obtain ⟨hba1, hba2⟩ := hba
    have hkey : a = b := Nat.le_antisymm hba1 hab1
    subst hkey
    rcases hab2 with h | h
    · exact absurd rfl h
    · rcases hba2 with h' | h'
      · exact absurd rfl h'
      · exact congrArg (a :: ·) (bytesLt_antisymm h h')

/-- The comparison is asymmetric. -/
theorem bytesLt_asymm {a b} (h : bytesLt a b = true) : bytesLt b a = false := by
  cases hba : bytesLt b a
  · rfl
  · exact absurd (bytesLt_trans h hba) (by simp [bytesLt_irrefl])

theorem pairLe_trans {a b c : Pair} (h₁ : pairLe a b) (h₂ : pairLe b c) :
    pairLe a c := by
  unfold pairLe at *
  cases hca : bytesLt c.key a.key
  · rfl
  · cases hab : bytesLt a.key b.key
    · have : a.key = b.key := bytesLt_antisymm hab h₁
      rw [this] at hca
      exact hca ▸ absurd hca (by simp [h₂])
    · exact absurd (bytesLt_trans hca hab) (by simp [h₂])

theorem mem_insertPair {x a : Pair} : ∀ {l : List Pair},
    a ∈ insertPair x l → a = x ∨ a ∈ l := by
  intro l
  induction l with
  | nil => simp [insertPair]
  | cons y ys ih =>
    simp only [insertPair]
    split
    · intro h
      rcases List.mem_cons.mp h with h | h
      · exact .inr (List.mem_cons.mpr (.inl h))
      · rcases ih h with h | h
        · exact .inl h
        · exact .inr (List.mem_cons.mpr (.inr h))
    · intro h
      rcases List.mem_cons.mp h with h | h
      · exact .inl h
      · exact .inr h

theorem sorted_insertPair (x : Pair) : ∀ {l : List Pair},
    List.Sorted pairLe l → List.Sorted pairLe (insertPair x l) := by
  intro l
  induction l with
  | nil => simp [insertPair, pairLe]
  | cons y ys ih =>
    intro hs
    rw [List.sorted_cons] at hs
    obtain ⟨hy, hys⟩ := hs
    simp only [insertPair]
    split
    case isTrue hlt =>
      rw [List.sorted_cons]
      refine ⟨?_, ih hys⟩
      intro b hb
      rcases mem_insertPair hb with rfl | hb
      · exact bytesLt_asymm hlt
      · exact hy b hb
    case isFalse hlt =>
      rw [List.sorted_cons]
      constructor
      · intro b hb
        rcases List.mem_cons.mp hb with rfl | hb
        · exact Bool.eq_false_iff.mpr hlt
        · exact pairLe_trans (Bool.eq_false_iff.mpr hlt) (hy b hb)
      · exact List.sorted_cons.mpr ⟨hy, hys⟩

theorem filter_insertPair_eq {x : Pair} {k : List Nat} (hx : x.key = k) :
    ∀ l : List Pair,
      (insertPair x l).filter (keyFilter k) = x :: l.filter (keyFilter k) := by
  intro l
  induction l with
  | nil => simp [insertPair, keyFilter, hx]
  | cons y ys ih =>
    simp only [insertPair]
    split
    case isTrue hlt =>
      have hyk : y.key ≠ k := by
        intro hyk
        rw [hyk, ← hx] at hlt
        simp [bytesLt_irrefl] at hlt
      rw [List.filter_cons_of_neg (by simp [keyFilter, hyk]),
        List.filter_cons_of_neg (by simp [keyFilter, hyk]), ih]
    case isFalse hlt =>
      rw [List.filter_cons_of_pos (by simp [keyFilter, hx])]

theorem filter_insertPair_ne {x : Pair} {k : List Nat} (hx : x.key ≠ k) :
    ∀ l : List Pair,
      (insertPair x l).filter (keyFilter k) = l.filter (keyFilter k) := by
  intro l
  induction l with
  | nil => simp [insertPair, keyFilter, hx]
  | cons y ys ih =>
    simp only [insertPair]
    split
    · by_cases hyk : y.key = k
      · rw [List.filter_cons_of_pos (by simp [keyFilter, hyk]),
          List.filter_cons_of_pos (by simp [keyFilter, hyk]), ih]
      · rw [List.filter_cons_of_neg (by simp [keyFilter, hyk]),
          List.filter_cons_of_neg (by simp [keyFilter, hyk]), ih]
    · rw [List.filter_cons_of_neg (by simp [keyFilter, hx])]

/-- Stability of the sort, phrased per key class: the subsequence of
pairs carrying any fixed key `k` is unchanged by the sort, so pairs with
equal keys keep their buffering order. -/
theorem filter_stableSortPairs (k : List Nat) : ∀ l : List Pair,
    (stableSortPairs l).filter (keyFilter k) = l.filter (keyFilter k) := by
  intro l
  induction l with
  | nil => rfl
  | cons x xs ih =>
    simp only [stableSortPairs]
    by_cases hx : x.key = k
    · rw [filter_insertPair_eq hx, ih, List.filter_cons_of_pos (by simp [keyFilter, hx])]
    · rw [filter_insertPair_ne hx, ih, List.filter_cons_of_neg (by simp [keyFilter, hx])]

theorem sorted_stableSortPairs : ∀ l : List Pair,
    List.Sorted pairLe (stableSortPairs l)
  | [] => List.sorted_nil
  | x :: xs => sorted_insertPair x (sorted_stableSortPairs xs)

theorem mem_dedupKeepLast {a : Pair} : ∀ {l : List Pair},
    a ∈ dedupKeepLast l → a ∈ l := by
  intro l h
  induction l using dedupKeepLast.induct with
  | case1 => simpa [dedupKeepLast] using h
  | case2 p => simpa [dedupKeepLast] using h
  | case3 p q rest hpq ih =>
    rw [dedupKeepLast, if_pos hpq] at h
    exact List.mem_cons.mpr (.inr (ih h))
  | case4 p q rest hpq ih =>
    rw [dedupKeepLast, if_neg hpq] at h
    rcases List.mem_cons.mp h with rfl | h
    · exact List.mem_cons.mpr (.inl rfl)
    · exact List.mem_cons.mpr (.inr (ih h))

/-- On a batch sorted by key, the deduplication loop keeps, for every
key `k`, exactly the last pair of the (contiguous) run of pairs with key
`k` — i.e. the last occurrence in the sorted order. -/
theorem filter_dedupKeepLast (k : List Nat) : ∀ l : List Pair,
    List.Sorted pairLe l →
    (dedupKeepLast l).filter (keyFilter k) =
      ((l.filter (keyFilter k)).getLast?).toList := by
  intro l
  induction l using dedupKeepLast.induct with
  | case1 => intro _; rfl
  | case2 p =>
    intro _
    by_cases hk : p.key = k
    · rw [dedupKeepLast, List.filter_cons_of_pos (by simp [keyFilter, hk]),
        List.filter_nil, List.getLast?_singleton]
      rfl
    · rw [dedupKeepLast, List.filter_cons_of_neg (by simp [keyFilter, hk]),
        List.filter_nil]
      rfl
  | case3 p q rest hpq ih =>
    intro hs
    rw [List.sorted_cons] at hs
    obtain ⟨_, hs⟩ := hs
    rw [dedupKeepLast, if_pos hpq]
    by_cases hk : p.key = k
    · have hqk : q.key = k := hpq.symm.trans hk
      have h1 : (p :: q :: rest).filter (keyFilter k) =
          p :: q :: rest.filter (keyFilter k) := by
        have hp1 : (p :: q :: rest).filter (keyFilter k) =
            p :: (q :: rest).filter (keyFilter k) :=
          List.filter_cons_of_pos (by simp [keyFilter, hk])
        have hp2 : (q :: rest).filter (keyFilter k) =
            q :: rest.filter (keyFilter k) :=
          List.filter_cons_of_pos (by simp [keyFilter, hqk])
        rw [hp1, hp2]
      have h2 : (q :: rest).filter (keyFilter k) =
          q :: rest.filter (keyFilter k) :=
        List.filter_cons_of_pos (by simp [keyFilter, hqk])
      rw [ih hs, h1, h2, List.getLast?_cons_cons]
    · have h1 : (p :: q :: rest).filter (keyFilter k) =
          (q :: rest).filter (keyFilter k) :=
        List.filter_cons_of_neg (by simp [keyFilter, hk])
      rw [ih hs, h1]
  | case4 p q rest hpq ih =>
    intro hs
    rw [List.sorted_cons] at hs
    obtain ⟨hp, hs⟩ := hs
    rw [dedupKeepLast, if_neg hpq]
    by_cases hk : p.key = k
    · have hplt : bytesLt p.key q.key = true := by
        have hqp : bytesLt q.key p.key = false := hp q (List.mem_cons_self q rest)
        cases hpqlt : bytesLt p.key q.key
        · exact absurd (bytesLt_antisymm hpqlt hqp) hpq
        · rfl
      have htail : ∀ b ∈ q :: rest, b.key ≠ k := by
        intro b hb hbk
        have hqb : bytesLt b.key q.key = false := by
          rcases List.mem_cons.mp hb with rfl | hb
          · exact bytesLt_irrefl _
          · exact (List.sorted_cons.mp hs).1 b hb
        rw [hbk, ← hk] at hqb
        rw [hqb] at hplt
        exact Bool.noConfusion hplt
      have hfilterTail : (q :: rest).filter (keyFilter k) = [] := by
        rw [List.filter_eq_nil]
        intro b hb
        simp [keyFilter, htail b hb]
      have hfilterDedup : (dedupKeepLast (q :: rest)).filter (keyFilter k) = [] := by
        rw [List.filter_eq_nil]
        intro b hb
        simp [keyFilter, htail b (mem_dedupKeepLast hb)]
      have h1 : (p :: dedupKeepLast (q :: rest)).filter (keyFilter k) =
          p :: (dedupKeepLast (q :: rest)).filter (keyFilter k) :=
        List.filter_cons_of_pos (by simp [keyFilter, hk])
      have h2 : (p :: q :: rest).filter (keyFilter k) =
          p :: (q :: rest).filter (keyFilter k) :=
        List.filter_cons_of_pos (by simp [keyFilter, hk])
      rw [h1, hfilterDedup, h2, hfilterTail, List.getLast?_singleton]
      rfl
    · have h1 : (p :: dedupKeepLast (q :: rest)).filter (keyFilter k) =
          (dedupKeepLast (q :: rest)).filter (keyFilter k) :=
        List.filter_cons_of_neg (by simp [keyFilter, hk])
      have h2 : (p :: q :: rest).filter (keyFilter k) =
          (q :: rest).filter (keyFilter k) :=
        List.filter_cons_of_neg (by simp [keyFilter, hk])
      rw [h1, h2, ih hs]

/-- The replay loop never writes the drop-fence map: the final state's
`dropTSMap` is the initial one.  (In the source, `dropTSMap` is only
ever written by `doDBDDLJob`.) -/
theorem dropTSMap_restoreTableFromPuller (cfg : WorkerCfg) :
    ∀ (stream : List SortItem) (st : LoopState),
      (restoreTableFromPuller cfg st stream).2.dropTSMap = st.dropTSMap := by
  intro stream
  induction stream with
  | nil => intro st; rfl
  | cons it rest ih =>
    intro st
    simp only [restoreTableFromPuller]
    split
    · exact ih st
    split
    · rfl
    split
    · exact ih _
    split
    · split
      · exact ih st
      split
      · exact ih st
      split
      · exact ih _
      · exact ih _
    · split
      · exact ih _
      · exact ih _

/-- Any event appended to the table buffer during replay passed the
window checks and the drop-fence check of the loop. -/
theorem append_mem_restoreTableFromPuller (cfg : WorkerCfg) {it : SortItem} :
    ∀ (stream : List SortItem) (st : LoopState),
      PullerAction.append it ∈ (restoreTableFromPuller cfg st stream).1 →
      cfg.startTS ≤ it.ts ∧ it.ts ≤ cfg.endTS ∧
        shouldFilter st.dropTSMap it = false := by
  intro stream
  induction stream with
  | nil =>
    intro st h
    simp only [restoreTableFromPuller, List.mem_cons, List.not_mem_nil,
      or_false] at h
    rcases h with h | h <;> exact PullerAction.noConfusion h
  | cons cur rest ih =>
    intro st h
    by_cases hlow : cfg.startTS > cur.ts
    · simp only [restoreTableFromPuller, if_pos hlow] at h
      rcases List.mem_cons.mp h with h | h
      · exact PullerAction.noConfusion h
      · exact ih st h
    by_cases hhigh : cfg.endTS < cur.ts
    · simp only [restoreTableFromPuller, if_neg hlow, if_pos hhigh] at h
      rcases List.mem_cons.mp h with h | h
      · exact PullerAction.noConfusion h
      rcases List.mem_cons.mp h with h | h
      · exact PullerAction.noConfusion h
      · exact absurd h (List.not_mem_nil _)
    by_cases hfence : shouldFilter st.dropTSMap cur = true
    · simp only [restoreTableFromPuller, if_neg hlow, if_neg hhigh,
        if_pos hfence] at h
      rcases List.mem_cons.mp h with h | h
      · exact PullerAction.noConfusion h
      rcases List.mem_cons.mp h with h | h
      · exact PullerAction.noConfusion h
      · exact ih ⟨st.dropTSMap, ⟨st.buf.resolved, []⟩⟩ h
    cases hdata : cur.data with
    | ddl q tp =>
      by_cases hrel : cfg.schema = cur.schema ∧
          (cfg.table = cur.table ∨ isDBRelatedDDL tp = true)
      · by_cases hdb : isDBRelatedDDL tp = true
        · simp only [restoreTableFromPuller, if_neg hlow, if_neg hhigh,
            if_neg hfence, hdata, if_neg (not_not_intro hrel), if_pos hdb] at h
          rcases List.mem_cons.mp h with h | h
          · exact PullerAction.noConfusion h
          · exact ih st h
        · by_cases hdt : isDropTable tp = true
          · simp only [restoreTableFromPuller, if_neg hlow, if_neg hhigh,
              if_neg hfence, hdata, if_neg (not_not_intro hrel), if_neg hdb,
              if_pos hdt] at h
            rcases List.mem_cons.mp h with h | h
            · exact PullerAction.noConfusion h
            rcases List.mem_cons.mp h with h | h
            · exact PullerAction.noConfusion h
            rcases List.mem_cons.mp h with h | h
            · exact PullerAction.noConfusion h
            rcases List.mem_cons.mp h with h | h
            · exact PullerAction.noConfusion h
            · exact ih ⟨st.dropTSMap, ⟨false, []⟩⟩ h
          · simp only [restoreTableFromPuller, if_neg hlow, if_neg hhigh,
              if_neg hfence, hdata, if_neg (not_not_intro hrel), if_neg hdb,
              if_neg hdt] at h
            rcases List.mem_cons.mp h with h | h
            · exact PullerAction.noConfusion h
            rcases List.mem_cons.mp h with h | h
            · exact PullerAction.noConfusion h
            rcases List.mem_cons.mp h with h | h
            · exact PullerAction.noConfusion h
            rcases List.mem_cons.mp h with h | h
            · exact PullerAction.noConfusion h
            · exact ih ⟨st.dropTSMap, ⟨true, []⟩⟩ h
      · simp only [restoreTableFromPuller, if_neg hlow, if_neg hhigh,
          if_neg hfence, hdata, if_pos hrel] at h
        rcases List.mem_cons.mp h with h | h
        · exact PullerAction.noConfusion h
        · exact ih st h
    | row =>
      have hit : it = cur →
          cfg.startTS ≤ it.ts ∧ it.ts ≤ cfg.endTS ∧
            shouldFilter st.dropTSMap it = false := by
        rintro rfl
        exact ⟨by omega, by omega, by simpa using hfence⟩
      by_cases hthr : cfg.flushThreshold ≤ (st.buf.items ++ [cur]).length
      · simp only [restoreTableFromPuller, if_neg hlow, if_neg hhigh,
          if_neg hfence, hdata, if_pos hthr] at h
        rcases List.mem_append.mp h with h | h
        · revert h
          split
          · simp
          · simp only [List.mem_cons, List.not_mem_nil, or_false]
            intro h
            exact PullerAction.noConfusion h
        rcases List.mem_cons.mp h with h | h
        · exact hit (PullerAction.append.inj h)
        rcases List.mem_cons.mp h with h | h
        · exact PullerAction.noConfusion h
        · exact ih ⟨st.dropTSMap, ⟨true, []⟩⟩ h
      · simp only [restoreTableFromPuller, if_neg hlow, if_neg hhigh,
          if_neg hfence, hdata, if_neg hthr] at h
        rcases List.mem_append.mp h with h | h
        · revert h
          split
          · simp
          · simp only [List.mem_cons, List.not_mem_nil, or_false]
            intro h
            exact PullerAction.noConfusion h
        rcases List.mem_cons.mp h with h | h
        · exact hit (PullerAction.append.inj h)
        · exact ih ⟨st.dropTSMap, ⟨true, st.buf.items ++ [cur]⟩⟩ h

/-- Any batch handed to `applyKVChanges` during replay consists of
events that either were already pending when the loop started or passed
the window and drop-fence checks.  `P` abstracts over the property being
propagated to the ingested pairs. -/
theorem flush_mem_restoreTableFromPuller (cfg : WorkerCfg)
    (P : SortItem → Prop) :
    ∀ (stream : List SortItem) (st : LoopState),
      (∀ x ∈ st.buf.items, P x) →
      (∀ x, cfg.startTS ≤ x.ts → x.ts ≤ cfg.endTS →
        shouldFilter st.dropTSMap x = false → P x) →
      ∀ l, PullerAction.flush l ∈ (restoreTableFromPuller cfg st stream).1 →
      ∀ x ∈ l, P x := by
  intro stream
  induction stream with
  | nil =>
    intro st hbuf _ l h
    simp only [restoreTableFromPuller, List.mem_cons, List.not_mem_nil,
      or_false] at h
    rcases h with h | h
    · cases h; exact hbuf
    · exact PullerAction.noConfusion h
  | cons cur rest ih =>
    intro st hbuf hpass l h
    have ih' : ∀ st1 : LoopState, st1.dropTSMap = st.dropTSMap →
        (∀ x ∈ st1.buf.items, P x) →
        ∀ l, PullerAction.flush l ∈ (restoreTableFromPuller cfg st1 rest).1 →
        ∀ x ∈ l, P x := by
      intro st1 hmap hb
      exact ih st1 hb (fun x h1 h2 h3 => hpass x h1 h2 (hmap ▸ h3))
    by_cases hlow : cfg.startTS > cur.ts
    · simp only [restoreTableFromPuller, if_pos hlow] at h
      rcases List.mem_cons.mp h with h | h
      · exact PullerAction.noConfusion h
      · exact ih st hbuf hpass l h
    by_cases hhigh : cfg.endTS < cur.ts
    · simp only [restoreTableFromPuller, if_neg hlow, if_pos hhigh] at h
      rcases List.mem_cons.mp h with h | h
      · cases h; exact hbuf
      rcases List.mem_cons.mp h with h | h
      · exact PullerAction.noConfusion h
      · exact absurd h (List.not_mem_nil _)
    by_cases hfence : shouldFilter st.dropTSMap cur = true
    · simp only [restoreTableFromPuller, if_neg hlow, if_neg hhigh,
        if_pos hfence] at h
      rcases List.mem_cons.mp h with h | h
      · cases h; exact hbuf
      rcases List.mem_cons.mp h with h | h
      · exact PullerAction.noConfusion h
      · exact ih' ⟨st.dropTSMap, ⟨st.buf.resolved, []⟩⟩ rfl (by simp) l h
    cases hdata : cur.data with
    | ddl q tp =>
      by_cases hrel : cfg.schema = cur.schema ∧
          (cfg.table = cur.table ∨ isDBRelatedDDL tp = true)
      · by_cases hdb : isDBRelatedDDL tp = true
        · simp only [restoreTableFromPuller, if_neg hlow, if_neg hhigh,
            if_neg hfence, hdata, if_neg (not_not_intro hrel), if_pos hdb] at h
          rcases List.mem_cons.mp h with h | h
          · exact PullerAction.noConfusion h
          · exact ih st hbuf hpass l h
        · by_cases hdt : isDropTable tp = true
          · simp only [restoreTableFromPuller, if_neg hlow, if_neg hhigh,
              if_neg hfence, hdata, if_neg (not_not_intro hrel), if_neg hdb,
              if_pos hdt] at h
            rcases List.mem_cons.mp h with h | h
            · cases h; exact hbuf
            rcases List.mem_cons.mp h with h | h
            · exact PullerAction.noConfusion h
            rcases List.mem_cons.mp h with h | h
            · exact PullerAction.noConfusion h
            rcases List.mem_cons.mp h with h | h
            · exact PullerAction.noConfusion h
            · exact ih' ⟨st.dropTSMap, ⟨false, []⟩⟩ rfl (by simp) l h
          · simp only [restoreTableFromPuller, if_neg hlow, if_neg hhigh,
              if_neg hfence, hdata, if_neg (not_not_intro hrel), if_neg hdb,
              if_neg hdt] at h
            rcases List.mem_cons.mp h with h | h
            · cases h; exact hbuf
            rcases List.mem_cons.mp h with h | h
            · exact PullerAction.noConfusion h
            rcases List.mem_cons.mp h with h | h
            · exact PullerAction.noConfusion h
            rcases List.mem_cons.mp h with h | h
            · exact PullerAction.noConfusion h
            · exact ih' ⟨st.dropTSMap, ⟨true, []⟩⟩ rfl (by simp) l h
      · simp only [restoreTableFromPuller, if_neg hlow, if_neg hhigh,
          if_neg hfence, hdata, if_pos hrel] at h
        rcases List.mem_cons.mp h with h | h
        · exact PullerAction.noConfusion h
        · exact ih st hbuf hpass l h
    | row =>
      have hcur : P cur := by
        refine hpass cur (by omega) (by omega) ?_
        simpa using hfence
      have hnew : ∀ x ∈ st.buf.items ++ [cur], P x := by
        intro x hx
        rcases List.mem_append.mp hx with hx | hx
        · exact hbuf x hx
        · rcases List.mem_cons.mp hx with rfl | hx
          · exact hcur
          · exact absurd hx (List.not_mem_nil _)
      by_cases hthr : cfg.flushThreshold ≤ (st.buf.items ++ [cur]).length
      · simp only [restoreTableFromPuller, if_neg hlow, if_neg hhigh,
          if_neg hfence, hdata, if_pos hthr] at h
        rcases List.mem_append.mp h with h | h
        · revert h
          split
          · simp
          · simp only [List.mem_cons, List.not_mem_nil, or_false]
            intro h
            exact PullerAction.noConfusion h
        rcases List.mem_cons.mp h with h | h
        · exact PullerAction.noConfusion h
        rcases List.mem_cons.mp h with h | h
        · cases h; exact hnew
        · exact ih' ⟨st.dropTSMap, ⟨true, []⟩⟩ rfl (by simp) l h
      · simp only [restoreTableFromPuller, if_neg hlow, if_neg hhigh,
          if_neg hfence, hdata, if_neg hthr] at h
        rcases List.mem_append.mp h with h | h
        · revert h
          split
          · simp
          · simp only [List.mem_cons, List.not_mem_nil, or_false]
            intro h
            exact PullerAction.noConfusion h
        rcases List.mem_cons.mp h with h | h
        · exact PullerAction.noConfusion h
        · exact ih' ⟨st.dropTSMap, ⟨true, st.buf.items ++ [cur]⟩⟩ rfl (by simpa using hnew) l h

/-- The replay loop obeys the flush discipline from any starting
state. -/
theorem flushedBeforeOK_restoreTableFromPuller (cfg : WorkerCfg) :
    ∀ (stream : List SortItem) (st : LoopState),
      flushedBeforeOK st.buf.items (restoreTableFromPuller cfg st stream).1 := by
  intro stream
  induction stream with
  | nil =>
    intro st
    simp only [restoreTableFromPuller, flushedBeforeOK]
    exact ⟨trivial, trivial, trivial⟩
  | cons cur rest ih =>
    intro st
    by_cases hlow : cfg.startTS > cur.ts
    · simp only [restoreTableFromPuller, if_pos hlow, flushedBeforeOK]
      exact ih st
    by_cases hhigh : cfg.endTS < cur.ts
    · simp only [restoreTableFromPuller, if_neg hlow, if_pos hhigh,
        flushedBeforeOK]
      exact ⟨trivial, trivial, trivial⟩
    by_cases hfence : shouldFilter st.dropTSMap cur = true
    · simp only [restoreTableFromPuller, if_neg hlow, if_neg hhigh,
        if_pos hfence, flushedBeforeOK]
      exact ⟨trivial, ih ⟨st.dropTSMap, ⟨st.buf.resolved, []⟩⟩⟩
    cases hdata : cur.data with
    | ddl q tp =>
      by_cases hrel : cfg.schema = cur.schema ∧
          (cfg.table = cur.table ∨ isDBRelatedDDL tp = true)
      · by_cases hdb : isDBRelatedDDL tp = true
        · simp only [restoreTableFromPuller, if_neg hlow, if_neg hhigh,
            if_neg hfence, hdata, if_neg (not_not_intro hrel), if_pos hdb,
            flushedBeforeOK]
          exact ih st
        · by_cases hdt : isDropTable tp = true
          · simp only [restoreTableFromPuller, if_neg hlow, if_neg hhigh,
              if_neg hfence, hdata, if_neg (not_not_intro hrel), if_neg hdb,
              if_pos hdt, flushedBeforeOK]
            exact ⟨trivial, trivial, ih ⟨st.dropTSMap, ⟨false, []⟩⟩⟩
          · simp only [restoreTableFromPuller, if_neg hlow, if_neg hhigh,
              if_neg hfence, hdata, if_neg (not_not_intro hrel), if_neg hdb,
              if_neg hdt, flushedBeforeOK]
            exact ⟨trivial, trivial, ih ⟨st.dropTSMap, ⟨true, []⟩⟩⟩
      · simp only [restoreTableFromPuller, if_neg hlow, if_neg hhigh,
          if_neg hfence, hdata, if_pos hrel, flushedBeforeOK]
        exact ih st
    | row =>
      by_cases hres : st.buf.resolved = true
      · by_cases hthr : cfg.flushThreshold ≤ (st.buf.items ++ [cur]).length
        · simp only [restoreTableFromPuller, if_neg hlow, if_neg hhigh,
            if_neg hfence, hdata, if_pos hres, if_pos hthr, List.nil_append,
            flushedBeforeOK]
          exact ⟨trivial, ih ⟨st.dropTSMap, ⟨true, []⟩⟩⟩
        · simp only [restoreTableFromPuller, if_neg hlow, if_neg hhigh,
            if_neg hfence, hdata, if_pos hres, if_neg hthr, List.nil_append,
            flushedBeforeOK]
          exact ih ⟨st.dropTSMap, ⟨true, st.buf.items ++ [cur]⟩⟩
      · by_cases hthr : cfg.flushThreshold ≤ (st.buf.items ++ [cur]).length
        · simp only [restoreTableFromPuller, if_neg hlow, if_neg hhigh,
            if_neg hfence, hdata, if_neg hres, if_pos hthr, List.cons_append,
            List.nil_append, flushedBeforeOK]
          exact ⟨trivial, ih ⟨st.dropTSMap, ⟨true, []⟩⟩⟩
        · simp only [restoreTableFromPuller, if_neg hlow, if_neg hhigh,
            if_neg hfence, hdata, if_neg hres, if_neg hthr, List.cons_append,
            List.nil_append, flushedBeforeOK]
          exact ih ⟨st.dropTSMap, ⟨true, st.buf.items ++ [cur]⟩⟩

/-- Positions of elements of the first part of a concatenation precede
positions of elements of the second part, when a predicate separates
them. -/
theorem get?_append_pos_lt {α : Type} {A B : List α} {P : α → Prop}
    (hA : ∀ x ∈ A, P x) (hB : ∀ x ∈ B, ¬ P x) {p q : Nat} {a b : α}
    (hp : (A ++ B).get? p = some a) (hPa : P a)
    (hq : (A ++ B).get? q = some b) (hPb : ¬ P b) : p < q := by
  have hpA : p < A.length := by
    by_contra hc
    rw [List.get?_append_right (Nat.le_of_not_lt hc)] at hp
    exact absurd hPa (hB a (List.get?_mem hp))
  have hqA : A.length ≤ q := by
    by_contra hc
    rw [List.get?_append (Nat.lt_of_not_le hc)] at hq
    exact hPb (hA b (List.get?_mem hq))
  omega

/-- The `executed` component of one file's fold in `doDBDDLJob`. -/
theorem executed_foldl_doDBDDLJobStep (startTS endTS : Nat) :
    ∀ (file : List DDLItem) (st : DBJobState),
      (file.foldl (doDBDDLJobStep startTS endTS) st).executed =
        st.executed ++ file.filter
          (fun it => isDBRelatedDDL it.tp && tsInRange startTS endTS it.ts) := by
  intro file
  induction file with
  | nil => intro st; simp
  | cons it f ih =>
    intro st
    have hstep : (doDBDDLJobStep startTS endTS st it).executed =
        if isDBRelatedDDL it.tp && tsInRange startTS endTS it.ts then
          st.executed ++ [it]
        else st.executed := by
      unfold doDBDDLJobStep
      split
      · split <;> rfl
      · rfl
    rw [List.foldl_cons, ih]
    by_cases hc : (isDBRelatedDDL it.tp && tsInRange startTS endTS it.ts) = true
    · have hfc : List.filter
          (fun x => isDBRelatedDDL x.tp && tsInRange startTS endTS x.ts)
          (it :: f) =
          it :: List.filter
            (fun x => isDBRelatedDDL x.tp && tsInRange startTS endTS x.ts) f :=
        List.filter_cons_of_pos hc
      rw [hstep, if_pos hc, hfc, List.append_assoc]
      rfl
    · have hfc : List.filter
          (fun x => isDBRelatedDDL x.tp && tsInRange startTS endTS x.ts)
          (it :: f) =
          List.filter
            (fun x => isDBRelatedDDL x.tp && tsInRange startTS endTS x.ts) f :=
        List.filter_cons_of_neg hc
      rw [hstep, if_neg hc, hfc]

/-- `doDBDDLJob` executes exactly the database-level DDL events whose
commit ts lies in `[startTS, endTS]`, in the order of the (sorted) file
list and, within a file, in decoding order. -/
theorem executed_doDBDDLJob (startTS endTS : Nat) :
    ∀ (files : List (List DDLItem)) (st : DBJobState),
      (doDBDDLJob startTS endTS files st).executed =
        st.executed ++ (files.flatMap id).filter
          (fun it => isDBRelatedDDL it.tp && tsInRange startTS endTS it.ts) := by
  intro files
  induction files with
  | nil => intro st; simp [doDBDDLJob]
  | cons file fs ih =>
    intro st
    have h1 : doDBDDLJob startTS endTS (file :: fs) st =
        doDBDDLJob startTS endTS fs
          (file.foldl (doDBDDLJobStep startTS endTS) st) := rfl
    rw [h1, ih, executed_foldl_doDBDDLJobStep]
    simp [List.filter_append, List.append_assoc]

/-- Membership in the collected generated-column index list. -/
theorem mem_collectGeneratedColumns (cols : List ColumnMeta) (j : Nat) :
    j ∈ collectGeneratedColumns cols ↔
      j < cols.length ∧ generatedAt cols j = true := by
  unfold collectGeneratedColumns
  split
  case isTrue hall =>
    simp only [List.not_mem_nil, false_iff, not_and]
    intro hj hgen
    rw [List.all_eq_true] at hall
    unfold generatedAt at hgen
    cases hget : cols.get? j with
    | none => rw [hget] at hgen; simp at hgen
    | some c =>
      rw [hget] at hgen
      simp only [Option.map_some', Option.getD_some] at hgen
      have := hall c (List.get?_mem hget)
      simp [hgen] at this
  case isFalse hall =>
    rw [List.mem_insertionSort, List.mem_filter, List.mem_range]

/-- The collected generated-column indices are sorted by column
offset. -/
theorem sorted_collectGeneratedColumns (cols : List ColumnMeta) :
    List.Sorted (fun i j => offsetAt cols i ≤ offsetAt cols j)
      (collectGeneratedColumns cols) := by
  unfold collectGeneratedColumns
  split
  · exact List.sorted_nil
  · haveI : IsTotal Nat (fun i j => offsetAt cols i ≤ offsetAt cols j) :=
      ⟨fun a b => Nat.le_total _ _⟩
    haveI : IsTrans Nat (fun i j => offsetAt cols i ≤ offsetAt cols j) :=
      ⟨fun _ _ _ h1 h2 => Nat.le_trans h1 h2⟩
    exact List.sorted_insertionSort _ _

/-! ## Claim theorems -/

/-- C1: For every row-change event whose commitTS lies outside
`[startTS, endTS]`, no key/value pair derived from that event is ever
appended to a table buffer or ingested: whatever is appended lies inside
the window, whatever is flushed was initially pending or lies inside the
window, an event with commitTS < startTS is skipped with pulling
continuing unchanged, and the first event with commitTS > endTS causes
the pending buffer to be flushed and the worker to stop without
processing that event. -/
theorem c1_out_of_window_events_never_ingested
    (cfg : WorkerCfg) (st : LoopState) (stream : List SortItem)
    (hwindow : cfg.startTS ≤ cfg.endTS) :
    (∀ it, PullerAction.append it ∈ (restoreTableFromPuller cfg st stream).1 →
      cfg.startTS ≤ it.ts ∧ it.ts ≤ cfg.endTS) ∧
    (∀ l, PullerAction.flush l ∈ (restoreTableFromPuller cfg st stream).1 →
      ∀ x ∈ l, x ∈ st.buf.items ∨ (cfg.startTS ≤ x.ts ∧ x.ts ≤ cfg.endTS)) ∧
    (∀ it rest, it.ts < cfg.startTS →
      restoreTableFromPuller cfg st (it :: rest) =
        (PullerAction.skipLow it :: (restoreTableFromPuller cfg st rest).1,
          (restoreTableFromPuller cfg st rest).2)) ∧
    (∀ it rest, cfg.endTS < it.ts →
      restoreTableFromPuller cfg st (it :: rest) =
        ([PullerAction.flush st.buf.items, PullerAction.stopHigh it],
          { st with buf := { st.buf with items := [] } })) := by
  refine ⟨?_, ?_, ?_, ?_⟩
  · intro it h
    have := append_mem_restoreTableFromPuller cfg stream st h
    exact ⟨this.1, this.2.1⟩
  · intro l h x hx
    exact flush_mem_restoreTableFromPuller cfg
      (fun x => x ∈ st.buf.items ∨ (cfg.startTS ≤ x.ts ∧ x.ts ≤ cfg.endTS))
      stream st (fun x hx => Or.inl hx)
      (fun x h1 h2 _ => Or.inr ⟨h1, h2⟩) l h x hx
  · intro it rest hlow
    simp only [restoreTableFromPuller, if_pos hlow]
  · intro it rest hhigh
    have hlow : ¬ cfg.startTS > it.ts := by omega
    simp only [restoreTableFromPuller, if_neg hlow, if_pos hhigh]

/-- Witness for C1 at a concrete window `[100, 200]`: a row event at ts
150 is appended inside the window; an event at ts 50 is skipped with
pulling continuing; an event at ts 250 flushes and stops the worker. -/
theorem c1_witness :
    ((100 : Nat) ≤ 150 ∧ (150 : Nat) ≤ 200) ∧
    (restoreTableFromPuller ⟨100, 200, "s", "t", 1000⟩ ⟨[], ⟨true, []⟩⟩
      [⟨"s", "t", 50, .row⟩] =
      (PullerAction.skipLow ⟨"s", "t", 50, .row⟩ ::
        (restoreTableFromPuller ⟨100, 200, "s", "t", 1000⟩ ⟨[], ⟨true, []⟩⟩ []).1,
        (restoreTableFromPuller ⟨100, 200, "s", "t", 1000⟩ ⟨[], ⟨true, []⟩⟩ []).2)) ∧
    (restoreTableFromPuller ⟨100, 200, "s", "t", 1000⟩ ⟨[], ⟨true, []⟩⟩
      [⟨"s", "t", 250, .row⟩] =
      ([PullerAction.flush [], PullerAction.stopHigh ⟨"s", "t", 250, .row⟩],
        ⟨[], ⟨true, []⟩⟩)) :=
  ⟨(c1_out_of_window_events_never_ingested ⟨100, 200, "s", "t", 1000⟩
      ⟨[], ⟨true, []⟩⟩ [⟨"s", "t", 150, .row⟩] (by decide)).1
      ⟨"s", "t", 150, .row⟩ (by decide),
    (c1_out_of_window_events_never_ingested ⟨100, 200, "s", "t", 1000⟩
      ⟨[], ⟨true, []⟩⟩ [] (by decide)).2.2.1 ⟨"s", "t", 50, .row⟩ [] (by decide),
    (c1_out_of_window_events_never_ingested ⟨100, 200, "s", "t", 1000⟩
      ⟨[], ⟨true, []⟩⟩ [] (by decide)).2.2.2 ⟨"s", "t", 250, .row⟩ [] (by decide)⟩

/-- C2: `RestoreLogData` fails with `ErrRestoreRTsConstrain` before any
restore work whenever `startTS > GlobalResolvedTS`; whenever
`endTS > GlobalResolvedTS` it lowers `endTS` to `GlobalResolvedTS` and
continues; and for every `startTS ≤ GlobalResolvedTS` no such error is
raised at this step. -/
theorem c2_window_validation (startTS endTS resolvedTS : Nat)
    (files : List (List DDLItem)) (tasks : List TableTask) :
    (startTS > resolvedTS →
      RestoreLogData startTS endTS resolvedTS files tasks =
        .error .rtsConstrain) ∧
    (startTS ≤ resolvedTS →
      RestoreLogData startTS endTS resolvedTS files tasks =
        .ok (min endTS resolvedTS,
          doDBDDLJob startTS (min endTS resolvedTS) files ⟨[], []⟩,
          (doDBDDLJob startTS (min endTS resolvedTS) files ⟨[], []⟩).executed.map
              GlobalAction.dbDDL
            ++ workersTrace startTS (min endTS resolvedTS)
              (doDBDDLJob startTS (min endTS resolvedTS) files ⟨[], []⟩).dropTSMap
              tasks)) := by
  constructor
  · intro h
    simp only [RestoreLogData, restoreLogDataCheck, if_pos h]
  · intro h
    have hnot : ¬ startTS > resolvedTS := by omega
    by_cases hclamp : endTS > resolvedTS
    · have hmin : min endTS resolvedTS = resolvedTS :=
        Nat.min_eq_right (Nat.le_of_lt hclamp)
      simp only [RestoreLogData, restoreLogDataCheck, if_neg hnot,
        if_pos hclamp, hmin]
    · have hmin : min endTS resolvedTS = endTS :=
        Nat.min_eq_left (by omega)
      simp only [RestoreLogData, restoreLogDataCheck, if_neg hnot,
        if_neg hclamp, hmin]

/-- Witness for C2: with `GlobalResolvedTS = 200`, `startTS = 300` fails
with the window error, and `startTS = 100, endTS = 250` continues with
`endTS` clamped to 200. -/
theorem c2_witness :
    RestoreLogData 300 250 200 [] [] = .error .rtsConstrain ∧
    RestoreLogData 100 250 200 [] [] =
      .ok (min 250 200, doDBDDLJob 100 (min 250 200) [] ⟨[], []⟩,
        (doDBDDLJob 100 (min 250 200) [] ⟨[], []⟩).executed.map
            GlobalAction.dbDDL
          ++ workersTrace 100 (min 250 200)
            (doDBDDLJob 100 (min 250 200) [] ⟨[], []⟩).dropTSMap []) :=
  ⟨(c2_window_validation 300 250 200 [] []).1 (by decide),
    (c2_window_validation 100 250 200 [] []).2 (by decide)⟩

/-- C3: For every schema with a recorded drop-fence ts `T`, every event
for that schema with commitTS < `T` that reaches the per-table replay
loop is filtered out before the DDL/row dispatch: it is never appended
to the buffer, it never appears in a flushed batch (provided the
initially pending events themselves passed the fence), and when it is
reached inside the window the loop flushes and discards it without
dispatching — for every stream, i.e. regardless of arrival order. -/
theorem c3_drop_fence_filters_stale_events
    (cfg : WorkerCfg) (st : LoopState) (stream : List SortItem)
    (it : SortItem) (T : Nat)
    (hT : lookupTS st.dropTSMap it.schema = some T) (hts : it.ts < T) :
    (PullerAction.append it ∉ (restoreTableFromPuller cfg st stream).1) ∧
    ((∀ x ∈ st.buf.items, shouldFilter st.dropTSMap x = false) →
      ∀ l, PullerAction.flush l ∈ (restoreTableFromPuller cfg st stream).1 →
        it ∉ l) ∧
    (∀ rest, cfg.startTS ≤ it.ts → it.ts ≤ cfg.endTS →
      restoreTableFromPuller cfg st (it :: rest) =
        (PullerAction.flush st.buf.items :: PullerAction.fenceFiltered it ::
          (restoreTableFromPuller cfg ⟨st.dropTSMap, ⟨st.buf.resolved, []⟩⟩
            rest).1,
          (restoreTableFromPuller cfg ⟨st.dropTSMap, ⟨st.buf.resolved, []⟩⟩
            rest).2)) := by
  have hfil : shouldFilter st.dropTSMap it = true := by
    unfold shouldFilter
    rw [hT]
    simpa using hts
  refine ⟨?_, ?_, ?_⟩
  · intro h
    have := (append_mem_restoreTableFromPuller cfg stream st h).2.2
    rw [hfil] at this
    exact Bool.noConfusion this
  · intro hbuf l hl hit
    have hfalse : shouldFilter st.dropTSMap it = false :=
      flush_mem_restoreTableFromPuller cfg
        (fun x => shouldFilter st.dropTSMap x = false) stream st hbuf
        (fun _ _ _ h3 => h3) l hl it hit
    rw [hfil] at hfalse
    exact Bool.noConfusion hfalse
  · intro rest h1 h2
    have hlow : ¬ cfg.startTS > it.ts := by omega
    have hhigh : ¬ cfg.endTS < it.ts := by omega
    simp only [restoreTableFromPuller, if_neg hlow, if_neg hhigh, if_pos hfil]

/-- Witness for C3: a drop fence at ts 180 for schema `s` filters a row
event at ts 150 inside the window `[100, 200]`. -/
theorem c3_witness :
    (PullerAction.append ⟨"s", "t", 150, .row⟩ ∉
      (restoreTableFromPuller ⟨100, 200, "s", "t", 1000⟩
        ⟨[("s", 180)], ⟨true, []⟩⟩ [⟨"s", "t", 150, .row⟩]).1) ∧
    (restoreTableFromPuller ⟨100, 200, "s", "t", 1000⟩
      ⟨[("s", 180)], ⟨true, []⟩⟩ [⟨"s", "t", 150, .row⟩] =
      (PullerAction.flush [] :: PullerAction.fenceFiltered ⟨"s", "t", 150, .row⟩ ::
        (restoreTableFromPuller ⟨100, 200, "s", "t", 1000⟩
          ⟨[("s", 180)], ⟨true, []⟩⟩ []).1,
        (restoreTableFromPuller ⟨100, 200, "s", "t", 1000⟩
          ⟨[("s", 180)], ⟨true, []⟩⟩ []).2)) :=
  ⟨(c3_drop_fence_filters_stale_events ⟨100, 200, "s", "t", 1000⟩
      ⟨[("s", 180)], ⟨true, []⟩⟩ [⟨"s", "t", 150, .row⟩] ⟨"s", "t", 150, .row⟩
      180 (by decide) (by decide)).1,
    (c3_drop_fence_filters_stale_events ⟨100, 200, "s", "t", 1000⟩
      ⟨[("s", 180)], ⟨true, []⟩⟩ [⟨"s", "t", 150, .row⟩] ⟨"s", "t", 150, .row⟩
      180 (by decide) (by decide)).2.2 [] (by decide) (by decide)⟩

/-- C4 counterexample: the claim asserts that for ANY buffering order of
`(k1,v1)` committed at ts 5 and `(k1,v2)` committed at ts 9 the
surviving value is `v2`.  Take `k1 = [1]`, `v1 = [5]`, `v2 = [9]` and
buffer `v2` before `v1`: `writeRows` keeps the LAST occurrence in
buffering order, so the survivor is `v1 = [5]`, not `v2 = [9]`. -/
theorem c4_counterexample :
    writeRowsKept [⟨[1], [9]⟩, ⟨[1], [5]⟩] = [⟨[1], [5]⟩] ∧
    ([5] : List Nat) ≠ [9] := by decide

/-- C4 (amended): `writeRows` stable-sorts the batch by key (the
per-key subsequences keep their buffering order) and, for every run of
equal keys, keeps exactly the last occurrence of that run — i.e. for
every key the unique survivor is the last pair with that key in
buffering order.  In particular, when the two pairs of the claim are
buffered in commit order (`v1` then `v2`), the survivor's value is
`v2`. -/
theorem c4_dedup_keeps_last_in_buffer_order (kvs : List Pair) (k : List Nat) :
    List.Sorted pairLe (stableSortPairs kvs) ∧
    (stableSortPairs kvs).filter (keyFilter k) = kvs.filter (keyFilter k) ∧
    (writeRowsKept kvs).filter (keyFilter k) =
      ((kvs.filter (keyFilter k)).getLast?).toList := by
  refine ⟨sorted_stableSortPairs kvs, filter_stableSortPairs k kvs, ?_⟩
  unfold writeRowsKept
  split
  case isTrue h => subst h; rfl
  case isFalse h =>
    rw [filter_dedupKeepLast k _ (sorted_stableSortPairs kvs),
      filter_stableSortPairs]

/-- C5 counterexample: a database-level DDL event at ts 50 sits in a
collected DDL file (its decoded commitTS 50 is ≤ endTS = 200), yet with
window `[100, 200]` the up-front pass does not execute it, because
`doDBDDLJob` also requires `commitTS ≥ startTS`. -/
theorem c5_counterexample :
    isDBRelatedDDL DDLType.createSchema = true ∧ (50 : Nat) ≤ 200 ∧
    (doDBDDLJob 100 200 [[⟨"s", "", 50, "create database s", .createSchema⟩]]
      ⟨[], []⟩).executed = [] := by decide

/-- C5 (amended): the database-level DDL events executed by the up-front
pass are exactly those, among the collected files' events, that are
database-level AND whose commitTS lies in `[startTS, endTS]`, executed
in file order (oldest to newest when the concatenated events are sorted
by ts), and all of them are executed before any per-table worker action
in the global trace of `RestoreLogData`. -/
theorem c5_db_ddl_executed_in_window_oldest_first
    (startTS endTS resolvedTS : Nat) (files : List (List DDLItem))
    (tasks : List TableTask) :
    ((doDBDDLJob startTS endTS files ⟨[], []⟩).executed =
      (files.flatMap id).filter
        (fun it => isDBRelatedDDL it.tp && tsInRange startTS endTS it.ts)) ∧
    (List.Sorted (fun a b : DDLItem => a.ts ≤ b.ts) (files.flatMap id) →
      List.Sorted (fun a b : DDLItem => a.ts ≤ b.ts)
        ((doDBDDLJob startTS endTS files ⟨[], []⟩).executed)) ∧
    (∀ eEff job tr,
      RestoreLogData startTS endTS resolvedTS files tasks = .ok (eEff, job, tr) →
      ∀ p q itm i a, tr.get? p = some (.dbDDL itm) →
        tr.get? q = some (.worker i a) → p < q) := by
  have hexec : (doDBDDLJob startTS endTS files ⟨[], []⟩).executed =
      (files.flatMap id).filter
        (fun it => isDBRelatedDDL it.tp && tsInRange startTS endTS it.ts) := by
    rw [executed_doDBDDLJob]
    rfl
  refine ⟨hexec, ?_, ?_⟩
  · intro hsorted
    rw [hexec]
    exact List.Pairwise.sublist (List.filter_sublist _) hsorted
  · intro eEff job tr htr p q itm i a hp hq
    unfold RestoreLogData at htr
    cases hcheck : restoreLogDataCheck startTS endTS resolvedTS with
    | error e => rw [hcheck] at htr; exact Except.noConfusion htr
    | ok eEff' =>
      rw [hcheck] at htr
      have htr' : tr =
          (doDBDDLJob startTS eEff' files ⟨[], []⟩).executed.map
              GlobalAction.dbDDL
            ++ workersTrace startTS eEff'
              (doDBDDLJob startTS eEff' files ⟨[], []⟩).dropTSMap tasks := by
        have := (Except.ok.inj htr)
        exact (congrArg (fun x => x.2.2) this).symm
      rw [htr'] at hp hq
      refine get?_append_pos_lt
        (P := fun x => ∃ d, x = GlobalAction.dbDDL d) ?_ ?_ hp ⟨itm, rfl⟩ hq ?_
      · intro x hx
        rcases List.mem_map.mp hx with ⟨d, _, rfl⟩
        exact ⟨d, rfl⟩
      · intro x hx ⟨d, hd⟩
        unfold workersTrace at hx
        rcases List.mem_flatMap.mp hx with ⟨pr, _, hx2⟩
        rcases List.mem_map.mp hx2 with ⟨act, _, rfl⟩
        exact GlobalAction.noConfusion hd
      · rintro ⟨d, hd⟩
        exact GlobalAction.noConfusion hd

/-- Witness for C5: with window `[100, 200]` and one collected file
holding a database-level DDL at ts 150, the global trace runs the DDL
(position 0) before the single worker's first action (position 1). -/
theorem c5_witness : (0 : Nat) < 1 :=
  (c5_db_ddl_executed_in_window_oldest_first 100 200 300
    [[⟨"s", "", 150, "create database s", .createSchema⟩]]
    [⟨"s", "t", 1000, ⟨true, []⟩, []⟩]).2.2 200
    ⟨[], [⟨"s", "", 150, "create database s", .createSchema⟩]⟩
    [GlobalAction.dbDDL ⟨"s", "", 150, "create database s", .createSchema⟩,
      GlobalAction.worker 0 (.flush []), GlobalAction.worker 0 .finish]
    (by rfl) 0 1 ⟨"s", "", 150, "create database s", .createSchema⟩ 0
    (.flush []) (by decide) (by decide)

/-- C6 counterexample: replaying a `DropSchema` event for schema `s` at
ts 5 through the per-table loop does NOT set `DropFence["s"] = 5` — the
loop leaves the drop-fence map unchanged (here: empty), while the claim
requires the fence to be updated to the event's commitTS. -/
theorem c6_counterexample :
    lookupTS ((restoreTableFromPuller ⟨0, 10, "s", "t", 1000⟩
      ⟨[], ⟨true, []⟩⟩
      [⟨"s", "", 5, .ddl "drop database s" .dropSchema⟩]).2.dropTSMap) "s" ≠
      some 5 := by decide

/-- C6 (amended): a database-level DDL event (including `DropSchema`)
encountered again during per-table replay is a complete no-op: the loop
skips it and continues with an unchanged state, and in particular the
drop-fence map is never written during replay (fences are recorded only
by the up-front `doDBDDLJob` pass). -/
theorem c6_db_ddl_noop_in_replay (cfg : WorkerCfg) (st : LoopState)
    (it : SortItem) (rest : List SortItem) (q : String) (tp : DDLType)
    (hdata : it.data = .ddl q tp) (hdb : isDBRelatedDDL tp = true)
    (h1 : cfg.startTS ≤ it.ts) (h2 : it.ts ≤ cfg.endTS)
    (hfence : shouldFilter st.dropTSMap it = false)
    (hschema : cfg.schema = it.schema) :
    restoreTableFromPuller cfg st (it :: rest) =
      (PullerAction.skipDBDDL it :: (restoreTableFromPuller cfg st rest).1,
        (restoreTableFromPuller cfg st rest).2) ∧
    (restoreTableFromPuller cfg st (it :: rest)).2.dropTSMap =
      st.dropTSMap := by
  have hlow : ¬ cfg.startTS > it.ts := by omega
  have hhigh : ¬ cfg.endTS < it.ts := by omega
  have hfil : ¬ shouldFilter st.dropTSMap it = true := by simp [hfence]
  have hrel : cfg.schema = it.schema ∧
      (cfg.table = it.table ∨ isDBRelatedDDL tp = true) :=
    ⟨hschema, Or.inr hdb⟩
  have heq : restoreTableFromPuller cfg st (it :: rest) =
      (PullerAction.skipDBDDL it :: (restoreTableFromPuller cfg st rest).1,
        (restoreTableFromPuller cfg st rest).2) := by
    simp only [restoreTableFromPuller, if_neg hlow, if_neg hhigh, if_neg hfil,
      hdata, if_neg (not_not_intro hrel), if_pos hdb]
  refine ⟨heq, ?_⟩
  rw [heq]
  exact dropTSMap_restoreTableFromPuller cfg rest st

/-- Witness for C6 (amended): the `DropSchema` event at ts 5 is skipped
and the state (drop-fence map included) is threaded through
unchanged. -/
theorem c6_witness :
    restoreTableFromPuller ⟨0, 10, "s", "t", 1000⟩ ⟨[("u", 3)], ⟨true, []⟩⟩
      [⟨"s", "", 5, .ddl "drop database s" .dropSchema⟩] =
      (PullerAction.skipDBDDL ⟨"s", "", 5, .ddl "drop database s" .dropSchema⟩ ::
        (restoreTableFromPuller ⟨0, 10, "s", "t", 1000⟩
          ⟨[("u", 3)], ⟨true, []⟩⟩ []).1,
        (restoreTableFromPuller ⟨0, 10, "s", "t", 1000⟩
          ⟨[("u", 3)], ⟨true, []⟩⟩ []).2) :=
  (c6_db_ddl_noop_in_replay ⟨0, 10, "s", "t", 1000⟩ ⟨[("u", 3)], ⟨true, []⟩⟩
    ⟨"s", "", 5, .ddl "drop database s" .dropSchema⟩ []
    "drop database s" .dropSchema rfl (by decide) (by decide) (by decide)
    (by decide) rfl).1

/-- C7: a table buffer's pending pairs are always flushed via
`applyKVChanges` before (a) a table-level DDL for the table is executed,
(b) the worker terminates on the puller's no-more-events sentinel, and
(c) the worker stops on a row event whose commitTS exceeds `endTS`: in
every trace of the replay loop, each `flush` hands over exactly the
pending pairs and the pending buffer is empty at every `execDDL`,
`stopHigh` and `finish` action. -/
theorem c7_buffer_flushed_at_boundaries (cfg : WorkerCfg) (st : LoopState)
    (stream : List SortItem) :
    flushedBeforeOK st.buf.items (restoreTableFromPuller cfg st stream).1 :=
  flushedBeforeOK_restoreTableFromPuller cfg stream st

/-- C8: the `ddlLock` critical section of `restoreTableFromPuller`
(part_000 lines 612-622) does NOT release the lock on its error exit
paths: when `Execute("use <schema>")` fails, or when `Execute(ddl.Query)`
fails, the function returns with the lock still held; only the success
path reaches `Unlock`.  This contradicts the specified scoped
acquire/release discipline — the error paths leak the mutex. -/
theorem c8_ddl_lock_leaked_on_error :
    (ddlCriticalSection .fail .ok).2 = true ∧
    (ddlCriticalSection .ok .fail).2 = true ∧
    ddlCriticalSection .ok .ok = (.ok (), false) :=
  ⟨rfl, rfl, rfl⟩

/-- C9: in `Encode`, every record-materialisation step (captured or
default column values, and the automatic row id) occurs strictly before
every generated-column evaluation step; the generated columns are
evaluated in ascending column-offset order; and the evaluated columns
are exactly the generated ones. -/
theorem c9_generated_columns_after_captured (cols : List ColumnMeta)
    (hasAutoRowID : Bool) :
    (∀ p q i j,
      (encodeSteps cols hasAutoRowID).get? p = some (.setCol i) →
      (encodeSteps cols hasAutoRowID).get? q = some (.evalGen j) → p < q) ∧
    List.Sorted (fun i j => offsetAt cols i ≤ offsetAt cols j)
      (collectGeneratedColumns cols) ∧
    (∀ j, EncodeStep.evalGen j ∈ encodeSteps cols hasAutoRowID ↔
      j < cols.length ∧ generatedAt cols j = true) := by
  refine ⟨?_, sorted_collectGeneratedColumns cols, ?_⟩
  · intro p q i j hp hq
    have hsplit : encodeSteps cols hasAutoRowID =
        (((List.range cols.length).map EncodeStep.setCol)
          ++ (if hasAutoRowID then [EncodeStep.setExtraHandle] else []))
        ++ ((collectGeneratedColumns cols).map EncodeStep.evalGen
          ++ [EncodeStep.addRecord]) := by
      simp [encodeSteps, List.append_assoc]
    rw [hsplit] at hp hq
    refine get?_append_pos_lt
      (P := fun x => (∃ n, x = EncodeStep.setCol n) ∨ x = EncodeStep.setExtraHandle)
      ?_ ?_ hp (Or.inl ⟨i, rfl⟩) hq ?_
    · intro x hx
      rcases List.mem_append.mp hx with hx | hx
      · rcases List.mem_map.mp hx with ⟨n, _, rfl⟩
        exact Or.inl ⟨n, rfl⟩
      · revert hx
        split
        · simp only [List.mem_singleton]
          intro hx
          exact Or.inr hx
        · intro hx
          exact absurd hx (List.not_mem_nil _)
    · intro x hx hPx
      rcases List.mem_append.mp hx with hx | hx
      · rcases List.mem_map.mp hx with ⟨n, _, rfl⟩
        rcases hPx with ⟨m, hm⟩ | hm <;> exact EncodeStep.noConfusion hm
      · rcases List.mem_singleton.mp hx with rfl
        rcases hPx with ⟨m, hm⟩ | hm <;> exact EncodeStep.noConfusion hm
    · rintro (⟨m, hm⟩ | hm) <;> exact EncodeStep.noConfusion hm
  · intro j
    constructor
    · intro h
      unfold encodeSteps at h
      rcases List.mem_append.mp h with h | h
      swap
      · rcases List.mem_singleton.mp h with h
        exact EncodeStep.noConfusion h
      rcases List.mem_append.mp h with h | h
      swap
      · rcases List.mem_map.mp h with ⟨n, hn, heq⟩
        have hnj : n = j := by injection heq
        subst hnj
        exact (mem_collectGeneratedColumns cols n).mp hn
      rcases List.mem_append.mp h with h | h
      · rcases List.mem_map.mp h with ⟨n, _, hn⟩
        exact EncodeStep.noConfusion hn
      · revert h
        split <;> simp
    · intro ⟨hj, hgen⟩
      unfold encodeSteps
      refine List.mem_append.mpr (Or.inl ?_)
      refine List.mem_append.mpr (Or.inr ?_)
      exact List.mem_map.mpr
        ⟨j, (mem_collectGeneratedColumns cols j).mpr ⟨hj, hgen⟩, rfl⟩

/-- Witness for C9 on a two-column table whose second column is
generated: column materialisation at position 0 precedes generated
evaluation at position 2, and the generated column is evaluated. -/
theorem c9_witness :
    (0 : Nat) < 2 ∧
    (EncodeStep.evalGen 1 ∈ encodeSteps [⟨0, false⟩, ⟨1, true⟩] false) :=
  ⟨(c9_generated_columns_after_captured [⟨0, false⟩, ⟨1, true⟩] false).1
      0 2 0 1 (by decide) (by decide),
    ((c9_generated_columns_after_captured [⟨0, false⟩, ⟨1, true⟩] false).2.2
      1).mpr (by decide)⟩

/-- C10: file-name classification is lenient, not fatal: a DDL or
row-change file name without exactly two dot-separated segments, or
whose first segment is not the expected tag, yields `(false, nil)` and
is silently skipped; an error is returned exactly when the name has the
right shape and tag but its timestamp segment fails to parse as an
unsigned 64-bit integer; and the bare name `cdclog` is always
collected. -/
theorem c10_filename_classification (endTS startTS : Nat) :
    (∀ f : FileName, (splitOnDot f).length ≠ 2 →
      needRestoreDDL endTS f = .ok false ∧
      (f ≠ logTag → needRestoreRowChange startTS f = .ok false)) ∧
    (∀ f a b, splitOnDot f = [a, b] → a ≠ ddlFileTag →
      needRestoreDDL endTS f = .ok false) ∧
    (∀ f a b, splitOnDot f = [a, b] → a ≠ logTag → f ≠ logTag →
      needRestoreRowChange startTS f = .ok false) ∧
    (∀ f : FileName, (∃ e, needRestoreDDL endTS f = .error e) ↔
      ∃ a b, splitOnDot f = [a, b] ∧ a = ddlFileTag ∧ parseUint64 b = none) ∧
    (∀ f : FileName, (∃ e, needRestoreRowChange startTS f = .error e) ↔
      f ≠ logTag ∧
        ∃ a b, splitOnDot f = [a, b] ∧ a = logTag ∧ parseUint64 b = none) ∧
    needRestoreRowChange startTS logTag = .ok true := by
  have hshape : ∀ (f : FileName), (splitOnDot f).length ≠ 2 →
      ∀ a b, splitOnDot f ≠ [a, b] := by
    intro f hlen a b hab
    rw [hab] at hlen
    exact hlen rfl
  refine ⟨?_, ?_, ?_, ?_, ?_, ?_⟩
  · intro f hlen
    constructor
    · unfold needRestoreDDL
      cases hs : splitOnDot f with
      | nil => rfl
      | cons a rest =>
        cases rest with
        | nil => rfl
        | cons b rest2 =>
          cases rest2 with
          | nil => exact absurd hs (hshape f hlen a b)
          | cons c rest3 => rfl
    · intro hne
      unfold needRestoreRowChange
      rw [if_neg hne]
      cases hs : splitOnDot f with
      | nil => rfl
      | cons a rest =>
        cases rest with
        | nil => rfl
        | cons b rest2 =>
          cases rest2 with
          | nil => exact absurd hs (hshape f hlen a b)
          | cons c rest3 => rfl
  · intro f a b hs ha
    unfold needRestoreDDL
    rw [hs]
    simp only [if_pos ha]
  · intro f a b hs ha hne
    unfold needRestoreRowChange
    rw [if_neg hne, hs]
    simp only [if_pos ha]
  · intro f
    constructor
    · rintro ⟨e, he⟩
      unfold needRestoreDDL at he
      cases hs : splitOnDot f with
      | nil => rw [hs] at he; exact Except.noConfusion he
      | cons a rest =>
        cases rest with
        | nil => rw [hs] at he; exact Except.noConfusion he
        | cons b rest2 =>
          cases rest2 with
          | nil =>
            rw [hs] at he
            have he' : (if a ≠ ddlFileTag then
                  (Except.ok false : Except RestoreErr Bool)
                else
                  match parseUint64 b with
                  | none => Except.error RestoreErr.decodeError
                  | some n =>
                    if maxUint64 - n ≤ endTS then Except.ok true
                    else Except.ok false) = Except.error e := he
            by_cases ha : a = ddlFileTag
            · refine ⟨a, b, rfl, ha, ?_⟩
              rw [if_neg (not_not_intro ha)] at he'
              cases hp : parseUint64 b with
              | none => rfl
              | some n =>
                rw [hp] at he'
                have he2 : (if maxUint64 - n ≤ endTS then
                      (Except.ok true : Except RestoreErr Bool)
                    else Except.ok false) = Except.error e := he'
                by_cases hts : maxUint64 - n ≤ endTS
                · rw [if_pos hts] at he2; exact Except.noConfusion he2
                · rw [if_neg hts] at he2; exact Except.noConfusion he2
            · rw [if_pos ha] at he'
              exact Except.noConfusion he'
          | cons c rest3 =>
            rw [hs] at he
            exact Except.noConfusion he
    · rintro ⟨a, b, hs, ha, hp⟩
      refine ⟨.decodeError, ?_⟩
      unfold needRestoreDDL
      rw [hs]
      have hgoal : (if a ≠ ddlFileTag then
            (Except.ok false : Except RestoreErr Bool)
          else
            match parseUint64 b with
            | none => Except.error RestoreErr.decodeError
            | some n =>
              if maxUint64 - n ≤ endTS then Except.ok true
              else Except.ok false) = Except.error RestoreErr.decodeError := by
        rw [if_neg (not_not_intro ha), hp]
      exact hgoal
  · intro f
    constructor
    · rintro ⟨e, he⟩
      unfold needRestoreRowChange at he
      by_cases hne : f = logTag
      · rw [if_pos hne] at he
        exact Except.noConfusion he
      · rw [if_neg hne] at he
        refine ⟨hne, ?_⟩
        cases hs : splitOnDot f with
        | nil => rw [hs] at he; exact Except.noConfusion he
        | cons a rest =>
          cases rest with
          | nil => rw [hs] at he; exact Except.noConfusion he
          | cons b rest2 =>
            cases rest2 with
            | nil =>
              rw [hs] at he
              have he' : (if a ≠ logTag then
                    (Except.ok false : Except RestoreErr Bool)
                  else
                    match parseUint64 b with
                    | none => Except.error RestoreErr.decodeError
                    | some n =>
                      if maybeTSInRange startTS n then Except.ok true
                      else Except.ok false) = Except.error e := he
              by_cases ha : a = logTag
              · refine ⟨a, b, rfl, ha, ?_⟩
                rw [if_neg (not_not_intro ha)] at he'
                cases hp : parseUint64 b with
                | none => rfl
                | some n =>
                  rw [hp] at he'
                  have he2 : (if maybeTSInRange startTS n then
                        (Except.ok true : Except RestoreErr Bool)
                      else Except.ok false) = Except.error e := he'
                  by_cases hts : maybeTSInRange startTS n = true
                  · rw [if_pos hts] at he2; exact Except.noConfusion he2
                  · rw [if_neg hts] at he2; exact Except.noConfusion he2
              · rw [if_pos ha] at he'
                exact Except.noConfusion he'
            | cons c rest3 =>
              rw [hs] at he
              exact Except.noConfusion he
    · rintro ⟨hne, a, b, hs, ha, hp⟩
      refine ⟨.decodeError, ?_⟩
      unfold needRestoreRowChange
      rw [if_neg hne, hs]
      have hgoal : (if a ≠ logTag then
            (Except.ok false : Except RestoreErr Bool)
          else
            match parseUint64 b with
            | none => Except.error RestoreErr.decodeError
            | some n =>
              if maybeTSInRange startTS n then Except.ok true
              else Except.ok false) = Except.error RestoreErr.decodeError := by
        rw [if_neg (not_not_intro ha), hp]
      exact hgoal
  · unfold needRestoreRowChange
    rw [if_pos rfl]

/-- Witness for C10 at concrete file names: `"ddlfoo"` (one segment) is
skipped, `"xxx.12"` (wrong tag) is skipped, `"ddl.x"` (right shape,
unparseable ts) errors, and the bare `"cdclog"` is collected. -/
theorem c10_witness :
    needRestoreDDL 100 "ddlfoo".toList = .ok false ∧
    needRestoreDDL 100 "xxx.12".toList = .ok false ∧
    (∃ e, needRestoreDDL 100 "ddl.x".toList = .error e) ∧
    needRestoreRowChange 7 "cdclog".toList = .ok true :=
  ⟨((c10_filename_classification 100 7).1 "ddlfoo".toList (by decide)).1,
    (c10_filename_classification 100 7).2.1 "xxx.12".toList
      "xxx".toList "12".toList (by decide) (by decide),
    ((c10_filename_classification 100 7).2.2.2.1 "ddl.x".toList).mpr
      ⟨"ddl".toList, "x".toList, by decide, by decide, by decide⟩,
    (c10_filename_classification 100 7).2.2.2.2.2⟩

end LogRestore
